import Mathlib

/- Verification of the core of the 3b1b-wordle-solver repository:
   the pattern-matrix cache of `src/pattern.py` and the guess-scoring and
   selection algorithms of `src/solver.py`.  Modules the sources import from
   outside `src/` (`src.pattern_utils`, `src.entropy`, `src.prior`,
   `src.block`, `src.file`) are modelled from the specification where a
   definition below says so. -/

namespace WordleSolver

abbrev Word := String

/-- Modelled from the spec: second pass of the Pattern Encoder (§4.1, module
`src.pattern_utils`, not under `src/`).  Walk the guess letters in position
order, each paired with its exact-match flag; a non-exact letter still present
in the remaining multiset becomes MISPLACED (1) and consumes one occurrence,
otherwise MISS (0); exact positions are EXACT (2). -/
def digitsGo : List (Char × Bool) → List Char → List ℕ
  | [], _ => []
  | (c, ex) :: rest, rem =>
    if ex then 2 :: digitsGo rest rem
    else if c ∈ rem then 1 :: digitsGo rest (rem.erase c)
    else 0 :: digitsGo rest rem

/-- Modelled from the spec: the Pattern Encoder `encode(guess, answer)` of §4.1
(`src.pattern_utils.generate_pattern_matrix` restricted to one pair, which is
what `src/pattern.py` uses it for).  First pass marks exact positions and
removes them from the answer's letter multiset; second pass is `digitsGo`;
digits are combined as `sum(digit_i * 3^i)` per §3. -/
def encodePattern (guess answer : Word) : ℕ :=
  let g := guess.data
  let a := answer.data
  let ex := List.zipWith (fun x y => decide (x = y)) g a
  let rem0 := ((a.zip ex).filter (fun p => !p.2)).map (fun p => p.1)
  (digitsGo (g.zip ex) rem0).foldr (fun d acc => d + 3 * acc) 0

/-- One entry of the process-wide cache `PATTERN_GRID_DATA` of `src/pattern.py`:
the resident grid and the word-to-index map, the latter represented by the word
list in index order (the word at position `i` has index `i`, exactly how
`dict(zip(get_word_list(game_name), itertools.count()))` assigns indices). -/
structure CacheEntry where
  grid : List (List ℕ)
  words_to_index : List Word
deriving DecidableEq

/-- The process-wide mutable store `PATTERN_GRID_DATA`: empty, or holding one
grid with its index map. -/
abbrev Cache := Option CacheEntry

/-- Dictionary lookup `words_to_index[w]`: the index of the first occurrence of
`w`, `none` meaning a `KeyError`. -/
def lookupIdx : List Word → Word → Option ℕ
  | [], _ => none
  | x :: xs, w => if x = w then some 0 else (lookupIdx xs w).map (· + 1)

/-- The full pattern grid `generate_full_pattern_matrix` builds for a word list:
entry `(g, a)` is the pattern of guess `words[g]` against answer `words[a]`.
Modelled from the spec for the parts outside `src/`: the block decomposition
(`src.block`) and the persisted file (`src.file`) are collapsed into direct
construction, which §4.2 states leaves the result unchanged, and §4.3's
load-or-build step is assumed to read back exactly what was built (§6 notes the
source does not guard against a stale file). -/
def mkGrid (words : List Word) : List (List ℕ) :=
  words.map (fun g => words.map (fun a => encodePattern g a))

/-- The cache entry produced by populating the cache for a word list. -/
def mkEntry (words : List Word) : CacheEntry :=
  ⟨mkGrid words, words⟩

/-- Monadic map over `Option` (a comprehension of fallible lookups). -/
def mapO {α β : Type} (f : α → Option β) : List α → Option (List β)
  | [] => some []
  | x :: xs =>
    match f x, mapO f xs with
    | some y, some ys => some (y :: ys)
    | _, _ => none

/-- The index lookups `[words_to_index[w] for w in words]` followed by the row
and column selection `full_grid[np.ix_(indices1, indices2)]` of
`get_pattern_matrix`: a missing word raises a `KeyError`, an out-of-range index
an `IndexError`. -/
def submatrix (e : CacheEntry) (words1 words2 : List Word) :
    Except String (List (List ℕ)) :=
  match mapO (lookupIdx e.words_to_index) words1, mapO (lookupIdx e.words_to_index) words2 with
  | some i1, some i2 =>
    match mapO (fun i => e.grid[i]?) i1 with
    | some rows =>
      match mapO (fun row => mapO (fun j => row[j]?) i2) rows with
      | some m => .ok m
      | none => .error "IndexError: index out of range"
    | none => .error "IndexError: index out of range"
  | _, _ => .error "KeyError: word not in words_to_index"

/-- `get_pattern_matrix(words1, words2, game_name)` of `src/pattern.py`, with the
process-wide state passed and returned explicitly.  An empty cache is populated
for the requested game (load-or-build of §4.3, modelled as construction from the
game's word list `env game`, the `get_word_list` collaborator of §6); a
populated cache is used as found, whatever game it was populated for.  Returns
the result together with the cache after the call. -/
def get_pattern_matrix (env : String → List Word) (c : Cache)
    (words1 words2 : List Word) (game : String) :
    Except String (List (List ℕ)) × Cache :=
  match c with
  | none =>
    let entry := mkEntry (env game)
    (submatrix entry words1 words2, some entry)
  | some entry => (submatrix entry words1 words2, some entry)

/-- `get_pattern(guess, answer, game_name)` of `src/pattern.py`: if the cache is
populated and both words are indexed, answer from the grid through
`get_pattern_matrix`; otherwise fall back to a direct Pattern Encoder call
(`generate_pattern_matrix([guess], [answer])[0, 0]`), touching no cache state. -/
def get_pattern (env : String → List Word) (c : Cache) (guess answer : Word)
    (game : String) : Except String ℕ × Cache :=
  match c with
  | some entry =>
    if guess ∈ entry.words_to_index ∧ answer ∈ entry.words_to_index then
      match get_pattern_matrix env (some entry) [guess] [answer] game with
      | (.ok ((v :: _) :: _), c2) => (.ok v, c2)
      | (.ok _, c2) => (.error "IndexError: index out of range", c2)
      | (.error e, c2) => (.error e, c2)
    else (.ok (encodePattern guess answer), some entry)
  | none => (.ok (encodePattern guess answer), none)

/-- `get_possible_words(guess, pattern, word_list, game_name)` of
`src/pattern.py`: compute the row of patterns of `guess` against `word_list`
through the cache and keep, in input order, the words whose pattern equals
`pattern` (`np.array(word_list)[all_patterns == pattern]`). -/
def get_possible_words (env : String → List Word) (c : Cache) (guess : Word)
    (pattern : ℕ) (word_list : List Word) (game : String) :
    Except String (List Word) × Cache :=
  match get_pattern_matrix env c [guess] word_list game with
  | (.ok m, c2) =>
    let all_patterns := m.flatten
    (.ok (((word_list.zip all_patterns).filter
        (fun p => decide (p.2 = pattern))).map (fun p => p.1)), c2)
  | (.error e, c2) => (.error e, c2)

/-- `get_weights(words, priors)` of `src/solver.py` (§3, Derived Weights):
normalised priors, or all zeros when the priors over `words` sum to zero. -/
def get_weights (words : List Word) (priors : Word → ℚ) : List ℚ :=
  let frequencies := words.map priors
  let total := frequencies.sum
  if total = 0 then frequencies.map (fun _ => 0)
  else frequencies.map (· / total)

/-- `entropy_to_expected_score(ent)` of `src/solver.py`.  The float `2**(-ent)`
is supplied as `pow2` applied to `-ent` (real exponentiation has no executable
rational form); the rest mirrors `2**(-ent) + 2*(1 - 2**(-ent)) +
1.5*ent/11.5` literally, with `1.5 = 3/2` and `11.5 = 23/2` exact. -/
def entropy_to_expected_score (pow2 : ℚ → ℚ) (ent : ℚ) : ℚ :=
  let min_score := pow2 (-ent) + 2 * (1 - pow2 (-ent))
  min_score + 3/2 * ent / (23/2)

/-- Modelled from the spec: the Entropy/Distribution Engine of §4.5 lives in
`src.entropy`, which is not under `src/`.  Its real-valued base-2 logarithm,
and the float `2**x` of `entropy_to_expected_score`, are abstracted as
rational-valued parameters; the distribution and bucket computations below are
defined from the spec's words. -/
structure EntropyEngine where
  log2 : ℚ → ℚ
  pow2 : ℚ → ℚ

/-- Modelled from the spec: §4.5 `distribution(guess)` — for each pattern index
in `[0, 3^5)` (the bucket range `src/pattern.py` hardcodes), the summed weight
of the possible answers landing in that bucket.  `pat` stands for the game's
pattern lookup (the cached grid of §4.3). -/
def pattern_distribution (pat : Word → Word → ℕ) (guess : Word)
    (possible : List Word) (weights : List ℚ) : List ℚ :=
  (List.range 243).map (fun p =>
    (((possible.zip weights).filter (fun aw => decide (pat guess aw.1 = p))).map
      (fun aw => aw.2)).sum)

/-- Modelled from the spec: §4.5 `entropy(distribution) = -Σ p·log2(p)` over
nonzero entries, `0·log 0` treated as 0 by filtering zeros out. -/
def entropy_of_distribution (log2 : ℚ → ℚ) (d : List ℚ) : ℚ :=
  -(((d.filter (fun p => decide (p ≠ 0))).map (fun p => p * log2 p)).sum)

/-- Modelled from the spec: `src.entropy.get_pattern_distributions` per §4.5,
one distribution per candidate guess. -/
def get_pattern_distributions (pat : Word → Word → ℕ) (guesses possible : List Word)
    (weights : List ℚ) : List (List ℚ) :=
  guesses.map (fun g => pattern_distribution pat g possible weights)

/-- Modelled from the spec: `src.entropy.get_entropies` per §4.5 — the entropy
of each candidate's pattern distribution. -/
def get_entropies (eng : EntropyEngine) (pat : Word → Word → ℕ)
    (allowed possible : List Word) (weights : List ℚ) : List ℚ :=
  (get_pattern_distributions pat allowed possible weights).map
    (entropy_of_distribution eng.log2)

/-- Modelled from the spec: `src.entropy.get_bucket_counts` as §4.7 policy 3
describes it — for one allowed word, the number of possible answers that the
guess resolves into singleton buckets (so that `p1 + p2 = bucket_count / n`). -/
def bucket_count (pat : Word → Word → ℕ) (guess : Word) (possible : List Word) : ℕ :=
  (possible.filter (fun a =>
    decide (possible.countP (fun b => decide (pat guess b = pat guess a)) = 1))).length

/-- Modelled from the spec: `src.entropy.get_bucket_counts` for a batch of
candidates. -/
def get_bucket_counts (pat : Word → Word → ℕ) (allowed possible : List Word) : List ℕ :=
  allowed.map (fun g => bucket_count pat g possible)

/-- Lookup in `dict(zip(possible_words, weights))` with default 0
(`word_to_weight.get(w, 0)`): a Python dict built from pairs keeps the last
binding of a repeated key, which the left fold reproduces. -/
def dictGet (pairs : List (Word × ℚ)) (w : Word) : ℚ :=
  pairs.foldl (fun acc kv => if kv.1 = w then kv.2 else acc) 0

/-- The data lines 54–63 of `src/solver.py` compute before the two-ply branch:
weights, prior entropy `h0`, per-candidate entropies `h1s`, the
`word_to_weight` lookup, and the one-ply expected-score array of line 63. -/
structure OnePly where
  weights : List ℚ
  h0 : ℚ
  h1s : List ℚ
  w2w : Word → ℚ
  expected : List ℚ

/-- Lines 54–63 of `get_expected_scores`. -/
def one_ply_data (eng : EntropyEngine) (pat : Word → Word → ℕ)
    (allowed possible : List Word) (priors : Word → ℚ) : OnePly :=
  let weights := get_weights possible priors
  let h0 := entropy_of_distribution eng.log2 weights
  let h1s := get_entropies eng pat allowed possible weights
  let w2w := dictGet (possible.zip weights)
  let probs := allowed.map w2w
  let expected := List.zipWith
    (fun p h1 => p + (1 - p) * (1 + entropy_to_expected_score eng.pow2 (h0 - h1)))
    probs h1s
  ⟨weights, h0, h1s, w2w, expected⟩

/-- `get_expected_scores` of `src/solver.py` with `look_two_ahead=False`: raise
on empty `possible_words`, otherwise the one-ply scores. -/
def get_expected_scores_base (eng : EntropyEngine) (pat : Word → Word → ℕ)
    (allowed possible : List Word) (priors : Word → ℚ) : Except String (List ℚ) :=
  if possible.isEmpty then .error "No possible words available for guessing."
  else .ok (one_ply_data eng pat allowed possible priors).expected

/-- First index of the minimum (`np.argmin`): the fold keeps the earlier index
on ties by updating only on strict `<`. -/
def argminAux : List ℚ → ℕ → ℕ × ℚ → ℕ × ℚ
  | [], _, best => best
  | x :: xs, i, best => argminAux xs (i + 1) (if x < best.2 then (i, x) else best)

/-- `np.argmin`, `none` on an empty array (numpy raises a `ValueError`). -/
def argminIdx? : List ℚ → Option ℕ
  | [] => none
  | x :: xs => some (argminAux xs 1 (0, x)).1

/-- First index of the maximum (`np.argmax`): update only on strict `>`. -/
def argmaxAux : List ℚ → ℕ → ℕ × ℚ → ℕ × ℚ
  | [], _, best => best
  | x :: xs, i, best => argmaxAux xs (i + 1) (if best.2 < x then (i, x) else best)

/-- `np.argmax`, `none` on an empty array. -/
def argmaxIdx? : List ℚ → Option ℕ
  | [] => none
  | x :: xs => some (argmaxAux xs 1 (0, x)).1

/-- List indexing `allowed_words[i]` that raises an `IndexError` out of range. -/
def getOrErr (l : List Word) (i : ℕ) : Except String Word :=
  match l[i]? with
  | some w => .ok w
  | none => .error "IndexError: list index out of range"

/-- Insertion step of a stable sort on (index, value) pairs by value. -/
def insertSorted (p : ℕ × ℚ) : List (ℕ × ℚ) → List (ℕ × ℚ)
  | [] => [p]
  | q :: rest => if p.2 ≤ q.2 then p :: q :: rest else q :: insertSorted p rest

/-- `np.argsort` of a score array: the indices ordered by ascending value
(stable on ties; numpy's default quicksort fixes no tie order, and the claims'
concrete inputs are tie-free). -/
def argsortIdx (l : List ℚ) : List ℕ :=
  (l.enum.foldr insertSorted []).map (fun p => p.1)

/-- Monadic map over `Except` (a Python list comprehension whose body may
raise stops at the first raised error). -/
def mapE {α β : Type} (f : α → Except String β) : List α → Except String (List β)
  | [] => .ok []
  | x :: xs =>
    match f x, mapE f xs with
    | .ok y, .ok ys => .ok (y :: ys)
    | .error e, _ => .error e
    | _, .error e => .error e

/-- Left fold over `Except` (the two-ply `for` loop performing in-place
updates, stopping at the first raised error). -/
def foldE {σ α : Type} (step : σ → α → Except String σ) : σ → List α → Except String σ
  | s, [] => .ok s
  | s, x :: xs =>
    match step s x with
    | .ok s2 => foldE step s2 xs
    | .error e => .error e

/-- The per-candidate uniform lower bound of `get_score_lower_bounds`:
`p1 + 2*p2 + 3*p3` with `p1` the chance the candidate is the answer, `p2`
derived from the bucket counts, `p3` the rest (lines 136–141 of
`src/solver.py`). -/
def score_lower_bound (pat : Word → Word → ℕ) (possible : List Word) (w : Word) : ℚ :=
  let n : ℚ := possible.length
  let p1 : ℚ := (if w ∈ possible then 1 else 0) / n
  let bc : ℚ := bucket_count pat w possible
  p1 + 2 * (bc / n - p1) + 3 * (1 - bc / n)

/-- `get_score_lower_bounds(allowed_words, possible_words, game_name)` of
`src/solver.py`: raises on empty `possible_words`, otherwise the per-candidate
uniform lower bounds. -/
def get_score_lower_bounds (pat : Word → Word → ℕ) (allowed possible : List Word) :
    Except String (List ℚ) :=
  if possible.isEmpty then .error "No possible words available for guessing."
  else .ok (allowed.map (score_lower_bound pat possible))

/-- `optimal_guess` of `src/solver.py` with every flag `False` — the exact form
the two-ply branch calls for second guesses: expected-score minimisation over
one-ply scores. -/
def optimal_guess_one (eng : EntropyEngine) (pat : Word → Word → ℕ)
    (allowed possible : List Word) (priors : Word → ℚ) : Except String Word :=
  if allowed.length = 0 then .error "No allowed words available."
  else
    match get_expected_scores_base eng pat allowed possible priors with
    | .error e => .error e
    | .ok scores =>
      if scores.length = 0 then .error "No expected scores calculated for argmin."
      else
        match argminIdx? scores with
        | some i => getOrErr allowed i
        | none => .error "ValueError: attempt to get argmin of an empty sequence"

/-- `get_word_buckets(guess, possible_words, game_name)` of `src/pattern.py`:
one bucket per pattern in `[0, 3**5)`, each listing in input order the possible
words whose pattern against the guess (through the cache, here `pat`) is that
index. -/
def get_word_buckets (pat : Word → Word → ℕ) (guess : Word) (possible : List Word) :
    List (List Word) :=
  (List.range 243).map (fun p => possible.filter (fun w => decide (pat guess w = p)))

/-- Body of the two-ply `for` loop of `get_expected_scores` (lines 78–121 of
`src/solver.py`) for one shortlisted candidate: pick a second guess for every
bucket with the one-ply selector over the game's full word list
(`get_word_list(game_name)`, supplied as `wordlist`; module `src.prior` is not
under `src/`), then form the three-term two-step expectation. -/
def two_ply_score (eng : EntropyEngine) (pat : Word → Word → ℕ)
    (wordlist possible : List Word) (priors : Word → ℚ) (weights : List ℚ)
    (w2w : Word → ℚ) (h0 h1 : ℚ) (guess : Word) : Except String ℚ :=
  let dist := (get_pattern_distributions pat [guess] possible weights).headD []
  let buckets := get_word_buckets pat guess possible
  match mapE (fun bucket => optimal_guess_one eng pat wordlist bucket priors) buckets with
  | .error e => .error e
  | .ok second_guesses =>
    let h2s := List.zipWith
      (fun g2 bucket => (get_entropies eng pat [g2] bucket (get_weights bucket priors)).headD 0)
      second_guesses buckets
    let prob := w2w guess
    .ok (1 * prob
      + 2 * (1 - prob) * (((dist.zip second_guesses).map (fun pg => pg.1 * w2w pg.2)).sum)
      + (1 - prob) * (2 + (((dist.zip second_guesses).zip h2s).map (fun pgH =>
          pgH.1.1 * (1 - w2w pgH.1.2)
            * entropy_to_expected_score eng.pow2 (h0 - h1 - pgH.2))).sum))

/-- `get_expected_scores` of `src/solver.py`: one-ply scores; when
`look_two_ahead` is set, `expected_scores += 1` pushes every score up, then the
top `n_top` candidates by one-ply score are recomputed in place with the
two-ply expectation. -/
def get_expected_scores (eng : EntropyEngine) (pat : Word → Word → ℕ)
    (wordlist : List Word) (allowed possible : List Word) (priors : Word → ℚ)
    (look_two_ahead : Bool) (n_top : ℕ) : Except String (List ℚ) :=
  if possible.isEmpty then .error "No possible words available for guessing."
  else
    let data := one_ply_data eng pat allowed possible priors
    if look_two_ahead = false then .ok data.expected
    else
      let sorted_indices := argsortIdx data.expected
      let base := data.expected.map (· + 1)
      foldE (fun scores i =>
          match getOrErr allowed i, data.h1s[i]? with
          | .ok guess, some h1 =>
            match two_ply_score eng pat wordlist possible priors data.weights
                data.w2w data.h0 h1 guess with
            | .ok s => .ok (scores.set i s)
            | .error e => .error e
          | .error e, _ => .error e
          | _, none => .error "IndexError: list index out of range")
        base (sorted_indices.take n_top)

/-- `optimal_guess` of `src/solver.py` with its three mutually exclusive
policies, in source order: the pure-information branch first (with its
singleton shortcut), then the empty-`allowed_words` check, then lower-bound or
expected-score minimisation. -/
def optimal_guess (eng : EntropyEngine) (pat : Word → Word → ℕ)
    (wordlist allowed possible : List Word) (priors : Word → ℚ)
    (look_two_ahead optimize_for_uniform_distribution purely_maximize_information : Bool)
    (n_top : ℕ) : Except String Word :=
  if purely_maximize_information then
    match possible with
    | [w] => .ok w
    | _ =>
      let weights := get_weights possible priors
      let entropies := get_entropies eng pat allowed possible weights
      match argmaxIdx? entropies with
      | some i => getOrErr allowed i
      | none => .error "ValueError: attempt to get argmax of an empty sequence"
  else if allowed.length = 0 then .error "No allowed words available."
  else
    match
      (if optimize_for_uniform_distribution then get_score_lower_bounds pat allowed possible
       else get_expected_scores eng pat wordlist allowed possible priors look_two_ahead n_top)
    with
    | .error e => .error e
    | .ok expected_scores =>
      if expected_scores.length = 0 then .error "No expected scores calculated for argmin."
      else
        match argminIdx? expected_scores with
        | some i => getOrErr allowed i
        | none => .error "ValueError: attempt to get argmin of an empty sequence"

/-- One simulated game of `brute_force_optimal_guess` (lines 213–235 of
`src/solver.py`): while the guess differs from the true answer, filter the
working set to the words consistent with the observed pattern and pick the next
guess with the uniform lower-bound policy over `all_words`, counting turns.
`fuel` bounds the loop, which the source leaves unbounded; `none` means no
termination within `fuel` iterations or a raised selection error. -/
def sim_go (eng : EntropyEngine) (pat : Word → Word → ℕ)
    (wordlist all_words : List Word) (priors : Word → ℚ) (answer : Word) :
    ℕ → Word → List Word → ℕ → Option ℕ
  | 0, guess, _, score => if guess = answer then some score else none
  | fuel + 1, guess, possibilities, score =>
    if guess = answer then some score
    else
      let possibilities2 := possibilities.filter
        (fun w => decide (pat guess w = pat guess answer))
      match optimal_guess eng pat wordlist all_words possibilities2 priors
          false true false 25 with
      | .ok next => sim_go eng pat wordlist all_words priors answer fuel next
          possibilities2 (score + 1)
      | .error _ => none

/-- The per-candidate measurement inside `brute_force_optimal_guess`: simulate a
complete game for every word of `possible` as the true answer (starting scores
at 1), then average the turn counts (`np.mean(scores)`). -/
def true_average_score (eng : EntropyEngine) (pat : Word → Word → ℕ)
    (wordlist all_words possible : List Word) (priors : Word → ℚ)
    (candidate : Word) (fuel : ℕ) : Option ℚ :=
  match mapO (fun answer =>
      sim_go eng pat wordlist all_words priors answer fuel candidate possible 1) possible with
  | some scores => some ((scores.map (fun s : ℕ => (s : ℚ))).sum / possible.length)
  | none => none

/- ------------------------------------------------------------------ -/
/- Shared helper lemmas                                               -/
/- ------------------------------------------------------------------ -/

theorem getOrErr_ok_mem {l : List Word} {i : ℕ} {w : Word}
    (h : getOrErr l i = .ok w) : w ∈ l := by
  unfold getOrErr at h
  cases hg : l[i]? with
  | none => rw [hg] at h; exact absurd h (by simp)
  | some v =>
    rw [hg] at h
    cases h
    exact List.getElem?_mem hg

theorem mapO_nil {α β : Type} (f : α → Option β) : mapO f [] = some [] := rfl

theorem mapO_cons_some {α β : Type} {f : α → Option β} {x : α} {b : β}
    {xs : List α} {bs : List β} (hx : f x = some b) (hxs : mapO f xs = some bs) :
    mapO f (x :: xs) = some (b :: bs) := by
  simp [mapO, hx, hxs]

theorem mapO_some_forall₂ {α β : Type} {f : α → Option β} :
    ∀ {l : List α} {r : List β}, mapO f l = some r →
      List.Forall₂ (fun a b => f a = some b) l r := by
  intro l
  induction l with
  | nil => intro r h; cases h; exact List.Forall₂.nil
  | cons x xs ih =>
    intro r h
    unfold mapO at h
    cases hx : f x with
    | none => rw [hx] at h; exact absurd h (by simp)
    | some y =>
      rw [hx] at h
      cases hxs : mapO f xs with
      | none => rw [hxs] at h; exact absurd h (by simp)
      | some ys =>
        rw [hxs] at h
        cases h
        exact List.Forall₂.cons hx (ih hxs)

theorem forall₂_mapO {α β : Type} {f : α → Option β} :
    ∀ {l : List α} {r : List β},
      List.Forall₂ (fun a b => f a = some b) l r → mapO f l = some r := by
  intro l r h
  induction h with
  | nil => rfl
  | cons hx _ ih => exact mapO_cons_some hx ih

theorem mapO_length {α β : Type} {f : α → Option β} {l : List α} {r : List β}
    (h : mapO f l = some r) : r.length = l.length :=
  (List.Forall₂.length_eq (mapO_some_forall₂ h)).symm

theorem mapE_ok_length {α β : Type} {f : α → Except String β} :
    ∀ {l : List α} {r : List β}, mapE f l = .ok r → r.length = l.length := by
  intro l
  induction l with
  | nil => intro r h; cases h; rfl
  | cons x xs ih =>
    intro r h
    unfold mapE at h
    cases hx : f x with
    | error e => rw [hx] at h; exact absurd h (by simp)
    | ok y =>
      rw [hx] at h
      cases hxs : mapE f xs with
      | error e => rw [hxs] at h; exact absurd h (by simp)
      | ok ys =>
        rw [hxs] at h
        cases h
        simp [ih hxs]

theorem mapE_cons_error {α β : Type} {f : α → Except String β} {x : α}
    {xs : List α} {e : String} (hx : f x = .error e) :
    mapE f (x :: xs) = .error e := by
  unfold mapE
  rw [hx]
  cases mapE f xs <;> rfl

theorem foldE_invariant {σ α : Type} (P : σ → Prop) (step : σ → α → Except String σ) :
    ∀ (l : List α),
      (∀ s a, a ∈ l → P s → ∀ s2, step s a = .ok s2 → P s2) →
      ∀ init out, P init → foldE step init l = .ok out → P out := by
  intro l
  induction l with
  | nil =>
    intro _ init out hinit h
    cases h
    exact hinit
  | cons x xs ih =>
    intro hstep init out hinit h
    unfold foldE at h
    cases hx : step init x with
    | error e => rw [hx] at h; exact absurd h (by simp)
    | ok s2 =>
      rw [hx] at h
      exact ih (fun s a ha => hstep s a (List.mem_cons_of_mem _ ha)) s2 out
        (hstep init x (List.mem_cons_self _ _) hinit s2 hx) h

theorem foldE_ok_length {α : Type} {step : List ℚ → α → Except String (List ℚ)}
    {l : List α} (hs : ∀ s a, a ∈ l → ∀ s2, step s a = .ok s2 → s2.length = s.length)
    {init out : List ℚ} (h : foldE step init l = .ok out) : out.length = init.length := by
  induction l generalizing init with
  | nil => cases h; rfl
  | cons x xs ih =>
    unfold foldE at h
    cases hx : step init x with
    | error e => rw [hx] at h; exact absurd h (by simp)
    | ok s2 =>
      rw [hx] at h
      have h1 := ih (fun s a ha => hs s a (List.mem_cons_of_mem _ ha)) h
      rw [h1, hs init x (List.mem_cons_self _ _) s2 hx]

theorem dictGet_aux {f : Word → ℚ} :
    ∀ (l : List Word) (w : Word) (acc : ℚ),
      (l.zip (l.map f)).foldl (fun a kv => if kv.1 = w then kv.2 else a) acc =
        if w ∈ l then f w else acc := by
  intro l
  induction l with
  | nil => intro w acc; simp
  | cons x xs ih =>
    intro w acc
    simp only [List.map_cons, List.zip_cons_cons, List.foldl_cons]
    rw [ih]
    by_cases hmem : w ∈ xs
    · simp [hmem]
    · by_cases hx : x = w
      · subst hx
        simp [hmem]
      · simp [hmem, hx, Ne.symm hx]

theorem dictGet_zip_map (l : List Word) (f : Word → ℚ) (w : Word) :
    dictGet (l.zip (l.map f)) w = if w ∈ l then f w else 0 :=
  dictGet_aux l w 0

theorem zipWith_map_same {α β γ δ : Type} (f : β → γ → δ) (g : α → β) (h : α → γ) :
    ∀ (l : List α), List.zipWith f (l.map g) (l.map h) = l.map (fun x => f (g x) (h x)) := by
  intro l
  induction l with
  | nil => rfl
  | cons x xs ih => simp [ih]

theorem sum_map_div (l : List ℚ) (c : ℚ) : (l.map (· / c)).sum = l.sum / c := by
  induction l with
  | nil => simp
  | cons x xs ih => simp [ih, add_div]

/-- The weights array in pointwise form: each word's weight is its prior over
the total, or zero in the degenerate case. -/
theorem get_weights_map_form (possible : List Word) (priors : Word → ℚ) :
    get_weights possible priors = possible.map (fun w =>
      if (possible.map priors).sum = 0 then 0
      else priors w / (possible.map priors).sum) := by
  unfold get_weights
  by_cases h : (possible.map priors).sum = 0
  · rw [if_pos h]
    simp only [List.map_map]
    exact List.map_congr_left (fun w _ => by simp [h])
  · rw [if_neg h]
    simp only [List.map_map]
    exact List.map_congr_left (fun w _ => by simp [h])

/- ------------------------------------------------------------------ -/
/- C9: get_weights                                                    -/
/- ------------------------------------------------------------------ -/

/-- C9: for every word subset and nonnegative prior mapping, `get_weights`
returns `prior(w)` divided by the sum of priors over the subset for each word
when that sum is nonzero — and those weights sum to 1 — and returns all-zero
weights when the sum of priors over the subset is zero. -/
theorem claim_C9_get_weights (words : List Word) (priors : Word → ℚ)
    (hnn : ∀ w ∈ words, 0 ≤ priors w) :
    ((words.map priors).sum = 0 →
      get_weights words priors = words.map (fun _ => 0)) ∧
    ((words.map priors).sum ≠ 0 →
      get_weights words priors = words.map (fun w => priors w / (words.map priors).sum) ∧
      (get_weights words priors).sum = 1) := by
  constructor
  · intro h
    unfold get_weights
    rw [if_pos h]
    simp only [List.map_map]
    rfl
  · intro h
    constructor
    · rw [get_weights_map_form]
      exact List.map_congr_left (fun w _ => by simp [h])
    · unfold get_weights
      simp only [if_neg h]
      rw [sum_map_div, div_self h]

/-- Witness for C9 at a concrete input: two words with unit priors. -/
theorem claim_C9_get_weights_witness :
    get_weights ["aa", "ab"] (fun _ => 1) =
      ["aa", "ab"].map (fun w => (fun _ => (1:ℚ)) w / ((["aa", "ab"].map (fun _ => (1:ℚ))).sum)) ∧
    (get_weights ["aa", "ab"] (fun _ => 1)).sum = 1 :=
  (claim_C9_get_weights ["aa", "ab"] (fun _ => 1)
    (fun _ _ => by norm_num)).2 (by norm_num)

/- ------------------------------------------------------------------ -/
/- C1: the cache never evicts on a game switch                        -/
/- ------------------------------------------------------------------ -/

/-- C1 counterexample: populate the cache for game "A" (word list `["aa"]`),
then query game "B" (word list `["aa","ab"]`) for its word "ab".  The claim
says the resident grid and index become those of "B" and the call answers from
a grid built for "B"; instead the call raises a `KeyError` against game "A"'s
resident index, and the resident entry stays game "A"'s, which differs from
game "B"'s. -/
theorem claim_C1_counterexample :
    (get_pattern_matrix (fun g => if g = "A" then ["aa"] else ["aa", "ab"])
        none ["aa"] ["aa"] "A").2 = some (mkEntry ["aa"]) ∧
    get_pattern_matrix (fun g => if g = "A" then ["aa"] else ["aa", "ab"])
        (some (mkEntry ["aa"])) ["ab"] ["ab"] "B" =
      (.error "KeyError: word not in words_to_index", some (mkEntry ["aa"])) ∧
    mkEntry ["aa"] ≠
      mkEntry ((fun g => if g = "A" then ["aa"] else ["aa", "ab"]) "B") := by
  refine ⟨rfl, rfl, ?_⟩
  intro h
  have := congrArg (fun e => e.words_to_index) h
  simp [mkEntry] at this

/-- C1 amended: the cache holds at most one grid, but a query for a different
game identifier does not evict or reload.  Once populated, `get_pattern_matrix`
answers every call from the resident grid and index and leaves the cache
unchanged, entirely ignoring the requested game identifier and word-list
environment. -/
theorem claim_C1_no_eviction (env env2 : String → List Word) (entry : CacheEntry)
    (words1 words2 : List Word) (game game2 : String) :
    get_pattern_matrix env (some entry) words1 words2 game =
      (submatrix entry words1 words2, some entry) ∧
    get_pattern_matrix env (some entry) words1 words2 game =
      get_pattern_matrix env2 (some entry) words1 words2 game2 :=
  ⟨rfl, rfl⟩

/- ------------------------------------------------------------------ -/
/- C8: the single-pair path                                           -/
/- ------------------------------------------------------------------ -/

/-- The value the resident grid stores for a pair of indexed words: look up
both indices, select the row, then the cell. -/
def cellVal (e : CacheEntry) (g w : Word) : Option ℕ :=
  (lookupIdx e.words_to_index g).bind (fun i =>
    (lookupIdx e.words_to_index w).bind (fun j =>
      (e.grid[i]?).bind (fun row => row[j]?)))

/-- C8: `get_pattern` answers from the resident grid when the cache is
populated and both words are indexed (returning exactly the stored cell), and
otherwise falls back to a direct Pattern Encoder call; in every case —
including the fallback — the process-wide cache state is left unchanged. -/
theorem claim_C8_get_pattern (env : String → List Word) (c : Cache)
    (guess answer : Word) (game : String) :
    (∀ entry, c = some entry →
      guess ∈ entry.words_to_index → answer ∈ entry.words_to_index →
      ∀ v, cellVal entry guess answer = some v →
        get_pattern env c guess answer game = (.ok v, c)) ∧
    (∀ entry, c = some entry →
      ¬(guess ∈ entry.words_to_index ∧ answer ∈ entry.words_to_index) →
      get_pattern env c guess answer game = (.ok (encodePattern guess answer), c)) ∧
    (c = none →
      get_pattern env c guess answer game = (.ok (encodePattern guess answer), c)) := by
  refine ⟨?_, ?_, ?_⟩
  · intro entry hc hg ha v hv
    subst hc
    unfold cellVal at hv
    cases hgi : lookupIdx entry.words_to_index guess with
    | none => rw [hgi] at hv; exact absurd hv (by simp)
    | some i =>
      cases hai : lookupIdx entry.words_to_index answer with
      | none => rw [hgi, hai] at hv; exact absurd hv (by simp)
      | some j =>
        rw [hgi, hai] at hv
        simp only [Option.some_bind] at hv
        cases hrow : entry.grid[i]? with
        | none => rw [hrow] at hv; exact absurd hv (by simp)
        | some row =>
          rw [hrow] at hv
          simp only [Option.some_bind] at hv
          simp [get_pattern, get_pattern_matrix, submatrix, mapO,
            hgi, hai, hrow, hv, hg, ha]
  · intro entry hc hno
    subst hc
    simp [get_pattern, hno]
  · intro hc
    subst hc
    rfl

/-- Witness for C8 at a concrete populated cache: both words indexed (cell 2 is
returned and the cache kept), and a fallback query for an unindexed word
(encoder value returned, cache kept). -/
theorem claim_C8_get_pattern_witness :
    get_pattern (fun _ => ["aa", "ab"]) (some (mkEntry ["aa", "ab"])) "aa" "ab" "G" =
      (.ok 2, some (mkEntry ["aa", "ab"])) :=
  (claim_C8_get_pattern (fun _ => ["aa", "ab"]) (some (mkEntry ["aa", "ab"]))
    "aa" "ab" "G").1 (mkEntry ["aa", "ab"]) rfl (by decide) (by decide) 2 (by decide)

/- ------------------------------------------------------------------ -/
/- C2 and C3: optimal_guess membership and the empty-allowed cases    -/
/- ------------------------------------------------------------------ -/

/-- A concrete engine instance for evaluations: `log2` constantly 0 and `pow2`
constantly 1, which agree with the real functions at the only points the
concrete inputs below reach (`log2 1 = 0`, `2 ** 0 = 1`). -/
def constEngine : EntropyEngine :=
  ⟨fun _ => 0, fun _ => 1⟩

/-- Uniform unit priors for concrete evaluations. -/
def onePrior : Word → ℚ := fun _ => 1

/-- C2 counterexample: with pure information maximization, a singleton
`possible_words` not contained in `allowed_words` is returned as is —
`optimal_guess` hands back a word outside `allowed_words`. -/
theorem claim_C2_counterexample :
    optimal_guess constEngine encodePattern [] ["aa"] ["bb"] onePrior
      false false true 25 = .ok "bb" ∧ ("bb" : Word) ∉ (["aa"] : List Word) :=
  ⟨rfl, by decide⟩

/-- C2 amended: whenever `optimal_guess` returns a word at all (with non-empty
`allowed_words`), that word is an element of `allowed_words` — except through
the pure-information-maximization singleton shortcut, which returns the single
remaining possible answer even when it lies outside `allowed_words`. -/
theorem claim_C2_membership (eng : EntropyEngine) (pat : Word → Word → ℕ)
    (wordlist allowed possible : List Word) (priors : Word → ℚ)
    (look uniform pure : Bool) (K : ℕ) (w : Word) (hA : allowed ≠ [])
    (h : optimal_guess eng pat wordlist allowed possible priors look uniform pure K = .ok w) :
    w ∈ allowed ∨ (pure = true ∧ possible = [w]) := by
  by_cases hp : pure = true
  · rw [hp] at h
    simp only [optimal_guess, if_true] at h
    cases possible with
    | nil =>
      cases hidx : argmaxIdx? (get_entropies eng pat allowed [] (get_weights [] priors)) with
      | none => rw [hidx] at h; exact absurd h (by simp)
      | some i => rw [hidx] at h; exact Or.inl (getOrErr_ok_mem h)
    | cons a tl =>
      cases tl with
      | nil =>
        cases h
        exact Or.inr ⟨hp, rfl⟩
      | cons b tl2 =>
        cases hidx : argmaxIdx? (get_entropies eng pat allowed (a :: b :: tl2)
            (get_weights (a :: b :: tl2) priors)) with
        | none => rw [hidx] at h; exact absurd h (by simp)
        | some i => rw [hidx] at h; exact Or.inl (getOrErr_ok_mem h)
  · have hp' : pure = false := by
      cases pure
      · rfl
      · exact absurd rfl hp
    rw [hp'] at h
    simp only [optimal_guess, Bool.false_eq_true, if_false] at h
    by_cases hlen : allowed.length = 0
    · exact absurd (List.length_eq_zero.mp hlen) hA
    · rw [if_neg hlen] at h
      cases hsc : (if uniform = true then get_score_lower_bounds pat allowed possible
          else get_expected_scores eng pat wordlist allowed possible priors look K) with
      | error e => rw [hsc] at h; exact absurd h (by simp)
      | ok scores =>
        rw [hsc] at h
        dsimp only at h
        by_cases hs0 : scores.length = 0
        · rw [if_pos hs0] at h; exact absurd h (by simp)
        · rw [if_neg hs0] at h
          cases hidx : argminIdx? scores with
          | none => rw [hidx] at h; exact absurd h (by simp)
          | some i => rw [hidx] at h; exact Or.inl (getOrErr_ok_mem h)

/-- Witness for C2 at a concrete input where the returned word does lie in
`allowed_words`. -/
theorem claim_C2_membership_witness :
    ("aa" : Word) ∈ (["aa"] : List Word) ∨ (true = true ∧ (["aa"] : List Word) = ["aa"]) :=
  claim_C2_membership constEngine encodePattern [] ["aa"] ["aa"] onePrior
    false false true 25 "aa" (by decide) rfl

/-- C3 counterexample: `optimal_guess` with empty `allowed_words`, pure
information maximization, and a singleton `possible_words` returns that word
instead of raising the claimed domain error (the singleton shortcut precedes
the empty-`allowed_words` check). -/
theorem claim_C3_counterexample :
    optimal_guess constEngine encodePattern [] [] ["aa"] onePrior
      false false true 25 = .ok "aa" :=
  rfl

/-- C3 amended: with empty `allowed_words`, the expected-score and
uniform-lower-bound policies raise a domain error, and pure information
maximization raises (through `argmax` of an empty entropy array) in every case
except a singleton `possible_words`, which it returns without any error. -/
theorem claim_C3_empty_allowed (eng : EntropyEngine) (pat : Word → Word → ℕ)
    (wordlist possible : List Word) (priors : Word → ℚ)
    (look uniform pure : Bool) (K : ℕ) :
    (pure = true → ∀ w, possible = [w] →
      optimal_guess eng pat wordlist [] possible priors look uniform pure K = .ok w) ∧
    ((pure = true → ∀ w, possible ≠ [w]) →
      ∃ e, optimal_guess eng pat wordlist [] possible priors look uniform pure K = .error e) := by
  constructor
  · intro hp w hw
    subst hw
    rw [hp]
    rfl
  · intro hno
    by_cases hp : pure = true
    · rw [hp]
      simp only [optimal_guess, if_true]
      cases possible with
      | nil =>
        refine ⟨"ValueError: attempt to get argmax of an empty sequence", ?_⟩
        have : get_entropies eng pat [] ([] : List Word) (get_weights [] priors) = [] := rfl
        rw [this]
        rfl
      | cons a tl =>
        cases tl with
        | nil => exact absurd rfl (hno hp a)
        | cons b tl2 =>
          refine ⟨"ValueError: attempt to get argmax of an empty sequence", ?_⟩
          have : get_entropies eng pat [] (a :: b :: tl2)
              (get_weights (a :: b :: tl2) priors) = [] := rfl
          rw [this]
          rfl
    · have hp' : pure = false := by
        cases pure
        · rfl
        · exact absurd rfl hp
      rw [hp']
      refine ⟨"No allowed words available.", ?_⟩
      simp only [optimal_guess, Bool.false_eq_true, if_false]
      rfl

/-- Witness for C3 at a concrete input: empty `allowed_words` with two possible
answers raises. -/
theorem claim_C3_empty_allowed_witness :
    ∃ e, optimal_guess constEngine encodePattern [] [] ["aa", "bb"] onePrior
      false false true 25 = .error e :=
  (claim_C3_empty_allowed constEngine encodePattern [] ["aa", "bb"] onePrior
    false false true 25).2 (fun _ w hw => by simp at hw)

/- ------------------------------------------------------------------ -/
/- C5: the one-ply expected-score formula                             -/
/- ------------------------------------------------------------------ -/

/-- C5: with two-ply lookahead disabled and non-empty `possible_words`,
`get_expected_scores` returns, for every candidate `w` of `allowed_words` in
order, exactly `prob + (1 - prob) * (1 + expected_remaining(h0 - h1))` with
`expected_remaining(e) = 2^(-e) + 2*(1 - 2^(-e)) + 1.5*e/11.5` (the float
`2^x` being the engine's `pow2`), `h0` the entropy of the full weighted
possible set, `h1` the candidate's post-guess entropy, and `prob` the
candidate's own weight in the possible-answer distribution — zero when the
candidate is not a possible answer. -/
theorem claim_C5_one_ply_scores (eng : EntropyEngine) (pat : Word → Word → ℕ)
    (wordlist allowed possible : List Word) (priors : Word → ℚ) (K : ℕ)
    (hne : possible ≠ []) :
    get_expected_scores eng pat wordlist allowed possible priors false K =
      .ok (allowed.map (fun w =>
        let prob := if w ∈ possible then
            (if (possible.map priors).sum = 0 then 0
             else priors w / (possible.map priors).sum)
          else 0
        let h0 := entropy_of_distribution eng.log2 (get_weights possible priors)
        let h1 := entropy_of_distribution eng.log2
          (pattern_distribution pat w possible (get_weights possible priors))
        prob + (1 - prob) * (1 + (eng.pow2 (-(h0 - h1))
          + 2 * (1 - eng.pow2 (-(h0 - h1))) + 3/2 * (h0 - h1) / (23/2))))) := by
  unfold get_expected_scores
  rw [if_neg (by simp [List.isEmpty_iff, hne])]
  rw [if_pos rfl]
  unfold one_ply_data
  dsimp only
  congr 1
  simp only [get_entropies, get_pattern_distributions, List.map_map]
  rw [zipWith_map_same]
  refine List.map_congr_left (fun w _ => ?_)
  simp only [Function.comp]
  rw [get_weights_map_form, dictGet_zip_map]
  rw [← get_weights_map_form]
  rfl

/-- Witness for C5 at a concrete input (one allowed word, one possible word). -/
theorem claim_C5_one_ply_scores_witness :
    get_expected_scores constEngine encodePattern [] ["aa"] ["aa"] onePrior false 25 =
      .ok (["aa"].map (fun w =>
        let prob := if w ∈ (["aa"] : List Word) then
            (if ((["aa"] : List Word).map onePrior).sum = 0 then 0
             else onePrior w / ((["aa"] : List Word).map onePrior).sum)
          else 0
        let h0 := entropy_of_distribution constEngine.log2 (get_weights ["aa"] onePrior)
        let h1 := entropy_of_distribution constEngine.log2
          (pattern_distribution encodePattern w ["aa"] (get_weights ["aa"] onePrior))
        prob + (1 - prob) * (1 + (constEngine.pow2 (-(h0 - h1))
          + 2 * (1 - constEngine.pow2 (-(h0 - h1))) + 3/2 * (h0 - h1) / (23/2))))) :=
  claim_C5_one_ply_scores constEngine encodePattern [] ["aa"] ["aa"] onePrior 25 (by decide)

/- ------------------------------------------------------------------ -/
/- C6: the two-ply refinement                                         -/
/- ------------------------------------------------------------------ -/

theorem pattern_distribution_singleton (pat : Word → Word → ℕ) (g a : Word) (x : ℚ) :
    pattern_distribution pat g [a] [x] =
      (List.range 243).map (fun p => if pat g a = p then x else 0) := by
  unfold pattern_distribution
  refine List.map_congr_left (fun p _ => ?_)
  by_cases h : pat g a = p
  · simp [h]
  · simp [h]

theorem filter_nonzero_of_single_hit (x : ℚ) (hx : x ≠ 0) :
    ∀ (n v : ℕ), v < n →
      ((List.range n).map (fun p => if v = p then x else 0)).filter
        (fun p => decide (p ≠ 0)) = [x] := by
  intro n
  induction n with
  | zero => intro v hv; exact absurd hv (by omega)
  | succ m ih =>
    intro v hv
    rw [List.range_succ, List.map_append, List.filter_append]
    by_cases hvm : v = m
    · subst hvm
      have hzero : ((List.range v).map (fun p => if v = p then x else 0)).filter
          (fun p => decide (p ≠ 0)) = [] := by
        rw [List.filter_eq_nil_iff]
        intro q hq
        rcases List.mem_map.mp hq with ⟨p, hp, hpq⟩
        have : v ≠ p := by
          have := List.mem_range.mp hp
          omega
        rw [if_neg this] at hpq
        simp [← hpq]
      rw [hzero]
      simp [hx]
    · have hvlt : v < m := by omega
      rw [ih v hvlt]
      have : v ≠ m := hvm
      simp [this]

theorem entropy_singleton_zero_log (pat : Word → Word → ℕ) (g a : Word) (x : ℚ)
    (hx : x ≠ 0) (hlt : pat g a < 243) :
    entropy_of_distribution (fun _ => 0) (pattern_distribution pat g [a] [x]) = 0 := by
  rw [pattern_distribution_singleton]
  unfold entropy_of_distribution
  rw [filter_nonzero_of_single_hit x hx 243 (pat g a) hlt]
  simp

theorem c6_one_ply_expected :
    (one_ply_data constEngine encodePattern ["aa", "ab"] ["aa"] onePrior).expected = [1, 2] := by
  have hw : get_weights ["aa"] onePrior = [1] := by
    norm_num [get_weights, onePrior]
  have h1 : entropy_of_distribution constEngine.log2
      (pattern_distribution encodePattern "aa" ["aa"] [1]) = 0 :=
    entropy_singleton_zero_log encodePattern "aa" "aa" 1 (by norm_num) (by decide)
  have h2 : entropy_of_distribution constEngine.log2
      (pattern_distribution encodePattern "ab" ["aa"] [1]) = 0 :=
    entropy_singleton_zero_log encodePattern "ab" "aa" 1 (by norm_num) (by decide)
  unfold one_ply_data
  rw [hw]
  simp only [get_entropies, get_pattern_distributions, List.map_map, List.map_cons,
    List.map_nil, Function.comp, h1, h2]
  norm_num [dictGet, entropy_of_distribution, entropy_to_expected_score, constEngine,
    show ("aa" : Word) ≠ "ab" from by decide]

theorem c6_one_ply_h1s :
    (one_ply_data constEngine encodePattern ["aa", "ab"] ["aa"] onePrior).h1s = [0, 0] := by
  have hw : get_weights ["aa"] onePrior = [1] := by
    norm_num [get_weights, onePrior]
  have h1 : entropy_of_distribution constEngine.log2
      (pattern_distribution encodePattern "aa" ["aa"] [1]) = 0 :=
    entropy_singleton_zero_log encodePattern "aa" "aa" 1 (by norm_num) (by decide)
  have h2 : entropy_of_distribution constEngine.log2
      (pattern_distribution encodePattern "ab" ["aa"] [1]) = 0 :=
    entropy_singleton_zero_log encodePattern "ab" "aa" 1 (by norm_num) (by decide)
  unfold one_ply_data
  rw [hw]
  simp only [get_entropies, get_pattern_distributions, List.map_map, List.map_cons,
    List.map_nil, Function.comp, h1, h2]

theorem optimal_guess_one_nil (eng : EntropyEngine) (pat : Word → Word → ℕ)
    (wordlist : List Word) (priors : Word → ℚ) (h : wordlist.length ≠ 0) :
    optimal_guess_one eng pat wordlist [] priors =
      .error "No possible words available for guessing." := by
  unfold optimal_guess_one
  rw [if_neg h]
  rfl

/-- The two-ply loop body raises as soon as one bucket is empty, because it
asks `optimal_guess` for a second guess over that empty bucket and the one-ply
scorer raises on empty `possible_words`; bucket 0 is empty whenever no possible
word produces pattern 0 against the shortlisted guess. -/
theorem two_ply_first_bucket_error (eng : EntropyEngine) (pat : Word → Word → ℕ)
    (wordlist possible : List Word) (priors : Word → ℚ) (weights : List ℚ)
    (w2w : Word → ℚ) (h0 h1 : ℚ) (g : Word) (hwl : wordlist.length ≠ 0)
    (hb : possible.filter (fun w => decide (pat g w = 0)) = []) :
    two_ply_score eng pat wordlist possible priors weights w2w h0 h1 g =
      .error "No possible words available for guessing." := by
  unfold two_ply_score
  have hbuckets : get_word_buckets pat g possible =
      (possible.filter (fun w => decide (pat g w = 0))) ::
        ((List.range 242).map (fun p =>
          possible.filter (fun w => decide (pat g w = Nat.succ p)))) := by
    unfold get_word_buckets
    rw [show (243 : ℕ) = 242 + 1 from rfl, List.range_succ_eq_map, List.map_cons,
      List.map_map]
    rfl
  rw [hbuckets, hb]
  have hm : mapE (fun bucket => optimal_guess_one eng pat wordlist bucket priors)
      (([] : List Word) :: List.map (fun p =>
        List.filter (fun w => decide (pat g w = Nat.succ p)) possible) (List.range 242)) =
      .error "No possible words available for guessing." :=
    mapE_cons_error (optimal_guess_one_nil eng pat wordlist priors hwl)
  dsimp only
  rw [hm]

/-- C6 counterexample: with two-ply lookahead enabled (shortlist size 1), the
call raises an empty-input error instead of returning any score array at all —
every shortlisted candidate has empty buckets, and the loop's recursive
`optimal_guess` raises on them — while the one-ply call on the same inputs
returns `[1, 2]`; so no candidate outside the shortlist keeps its one-ply score
in a returned array. -/
theorem claim_C6_counterexample :
    get_expected_scores constEngine encodePattern ["aa", "ab"] ["aa", "ab"] ["aa"] onePrior
        true 1 = .error "No possible words available for guessing." ∧
    get_expected_scores constEngine encodePattern ["aa", "ab"] ["aa", "ab"] ["aa"] onePrior
        false 1 = .ok [1, 2] := by
  constructor
  · unfold get_expected_scores
    rw [if_neg (by simp)]
    rw [if_neg (by simp)]
    rw [c6_one_ply_expected, c6_one_ply_h1s]
    have hsort : argsortIdx [1, 2] = [0, 1] := by
      norm_num [argsortIdx, insertSorted, List.enum]
    rw [hsort]
    show foldE _ _ [0] = _
    unfold foldE
    have hstep : two_ply_score constEngine encodePattern ["aa", "ab"] ["aa"] onePrior
        (one_ply_data constEngine encodePattern ["aa", "ab"] ["aa"] onePrior).weights
        (one_ply_data constEngine encodePattern ["aa", "ab"] ["aa"] onePrior).w2w
        (one_ply_data constEngine encodePattern ["aa", "ab"] ["aa"] onePrior).h0 0 "aa" =
        .error "No possible words available for guessing." :=
      two_ply_first_bucket_error _ _ _ _ _ _ _ _ _ _ (by decide) (by decide)
    simp only [getOrErr, List.getElem?_cons_zero, hstep]
  · unfold get_expected_scores
    rw [if_neg (by simp)]
    rw [if_pos rfl]
    rw [c6_one_ply_expected]

/-- C6 amended: whenever a two-ply-enabled `get_expected_scores` call does
return a score array, every candidate outside the top-`K` shortlist receives
its one-ply expected score plus one (from the `expected_scores += 1` push), not
its unchanged one-ply score; and the call raises instead of returning whenever
a shortlisted candidate has an empty bucket. -/
theorem claim_C6_two_ply_frame (eng : EntropyEngine) (pat : Word → Word → ℕ)
    (wordlist allowed possible : List Word) (priors : Word → ℚ) (K : ℕ)
    (scores : List ℚ)
    (hok : get_expected_scores eng pat wordlist allowed possible priors true K = .ok scores)
    (j : ℕ)
    (hj : j ∉ (argsortIdx (one_ply_data eng pat allowed possible priors).expected).take K) :
    scores[j]? =
      ((one_ply_data eng pat allowed possible priors).expected[j]?).map (· + 1) := by
  unfold get_expected_scores at hok
  by_cases hemp : possible.isEmpty
  · rw [if_pos hemp] at hok
    exact absurd hok (by simp)
  · rw [if_neg hemp] at hok
    rw [if_neg (by simp)] at hok
    refine foldE_invariant
      (fun s => s[j]? =
        ((one_ply_data eng pat allowed possible priors).expected[j]?).map (· + 1))
      _ _ ?_ _ _ ?_ hok
    · intro s i hi hs s2 hstep
      have hij : i ≠ j := fun he => hj (he ▸ hi)
      cases hga : getOrErr allowed i with
      | error e => rw [hga] at hstep; exact absurd hstep (by simp)
      | ok guess =>
        cases hh1 : (one_ply_data eng pat allowed possible priors).h1s[i]? with
        | none => rw [hga, hh1] at hstep; exact absurd hstep (by simp)
        | some h1 =>
          rw [hga, hh1] at hstep
          dsimp only at hstep
          cases htp : two_ply_score eng pat wordlist possible priors
              (one_ply_data eng pat allowed possible priors).weights
              (one_ply_data eng pat allowed possible priors).w2w
              (one_ply_data eng pat allowed possible priors).h0 h1 guess with
          | error e => rw [htp] at hstep; exact absurd hstep (by simp)
          | ok v =>
            rw [htp] at hstep
            cases hstep
            rw [List.getElem?_set_ne hij]
            exact hs
    · simp [List.getElem?_map]

/-- Witness for C6 amended: with shortlist size 0 the loop is skipped, the call
returns, and every index is outside the shortlist with its one-ply score plus
one. -/
theorem claim_C6_two_ply_frame_witness :
    ([2, 3] : List ℚ)[0]? =
      (((one_ply_data constEngine encodePattern ["aa", "ab"] ["aa"] onePrior).expected)[0]?).map
        (· + 1) := by
  have hok : get_expected_scores constEngine encodePattern ["aa", "ab"] ["aa", "ab"] ["aa"]
      onePrior true 0 = .ok [2, 3] := by
    unfold get_expected_scores
    rw [if_neg (by simp)]
    rw [if_neg (by simp)]
    rw [c6_one_ply_expected]
    norm_num [foldE]
  exact claim_C6_two_ply_frame constEngine encodePattern ["aa", "ab"] ["aa", "ab"] ["aa"]
    onePrior 0 [2, 3] hok 0 (by simp)

/- ------------------------------------------------------------------ -/
/- C7 and C10: get_possible_words as an order-preserving filter       -/
/- ------------------------------------------------------------------ -/

theorem lookupIdx_isSome_of_mem {l : List Word} {w : Word} (h : w ∈ l) :
    ∃ i, lookupIdx l w = some i := by
  induction l with
  | nil => cases h
  | cons x xs ih =>
    unfold lookupIdx
    by_cases hx : x = w
    · exact ⟨0, by rw [if_pos hx]⟩
    · rcases ih (by cases h with
        | head => exact absurd rfl hx
        | tail _ h2 => exact h2) with ⟨i, hi⟩
      exact ⟨i + 1, by rw [if_neg hx, hi]; rfl⟩

theorem lookupIdx_getElem? {l : List Word} {w : Word} :
    ∀ {i : ℕ}, lookupIdx l w = some i → l[i]? = some w := by
  induction l with
  | nil => intro i h; exact absurd h (by simp [lookupIdx])
  | cons x xs ih =>
    intro i h
    unfold lookupIdx at h
    by_cases hx : x = w
    · rw [if_pos hx] at h
      cases h
      simp [hx]
    · rw [if_neg hx] at h
      cases hj : lookupIdx xs w with
      | none => rw [hj] at h; exact absurd h (by simp)
      | some j =>
        rw [hj] at h
        cases h
        simpa using ih hj

theorem mapO_singleton_elim {α β : Type} {f : α → Option β} {a : α} {r : List β}
    (h : mapO f [a] = some r) : ∃ b, f a = some b ∧ r = [b] := by
  unfold mapO at h
  cases hfa : f a with
  | none => rw [hfa] at h; exact absurd h (by simp [mapO])
  | some b =>
    rw [hfa] at h
    refine ⟨b, rfl, ?_⟩
    simpa [mapO] using h.symm

theorem mapO_isSome {α β : Type} {f : α → Option β} :
    ∀ {l : List α}, (∀ a ∈ l, ∃ b, f a = some b) → ∃ r, mapO f l = some r := by
  intro l
  induction l with
  | nil => intro _; exact ⟨[], rfl⟩
  | cons x xs ih =>
    intro h
    rcases h x (List.mem_cons_self _ _) with ⟨b, hb⟩
    rcases ih (fun a ha => h a (List.mem_cons_of_mem _ ha)) with ⟨r, hr⟩
    exact ⟨b :: r, mapO_cons_some hb hr⟩

theorem forall₂_bind_comp {α β γ : Type} {f : α → Option β} {g : β → Option γ}
    {l : List α} {m : List β} {r : List γ}
    (h1 : List.Forall₂ (fun a b => f a = some b) l m)
    (h2 : List.Forall₂ (fun b c => g b = some c) m r) :
    List.Forall₂ (fun a c => (f a).bind g = some c) l r := by
  induction h1 generalizing r with
  | nil => cases h2; exact List.Forall₂.nil
  | cons hab htl ih =>
    cases h2 with
    | cons hbc htl2 =>
      exact List.Forall₂.cons (by rw [hab]; simpa using hbc) (ih htl2)

theorem forall₂_map_of_forall {α β : Type} {F : α → Option β} {gfun : α → β} :
    ∀ {l : List α}, (∀ a ∈ l, F a = some (gfun a)) →
      List.Forall₂ (fun a b => F a = some b) l (l.map gfun) := by
  intro l
  induction l with
  | nil => intro _; exact List.Forall₂.nil
  | cons x xs ih =>
    intro h
    exact List.Forall₂.cons (h x (List.mem_cons_self _ _))
      (ih (fun a ha => h a (List.mem_cons_of_mem _ ha)))

theorem zip_filter_map_of_forall₂ {F : Word → Option ℕ} {patt : ℕ}
    {ws : List Word} {vals : List ℕ}
    (h : List.Forall₂ (fun w v => F w = some v) ws vals) :
    ((ws.zip vals).filter (fun p => decide (p.2 = patt))).map (fun p => p.1) =
      ws.filter (fun w => decide (F w = some patt)) := by
  induction h with
  | nil => rfl
  | @cons a b l1 l2 hab htl ih =>
    simp only [List.zip_cons_cons, List.filter_cons]
    by_cases hb : b = patt
    · have hfa : F a = some patt := by rw [hab, hb]
      simp [hb, hfa, ih]
    · have hfa : F a ≠ some patt := by
        rw [hab]
        intro hc
        exact hb (Option.some_inj.mp hc)
      simp [hb, hfa, ih]

theorem submatrix_single_elim {e : CacheEntry} {g : Word} {ws : List Word}
    {m : List (List ℕ)} (h : submatrix e [g] ws = .ok m) :
    ∃ i row js vals,
      lookupIdx e.words_to_index g = some i ∧
      e.grid[i]? = some row ∧
      mapO (lookupIdx e.words_to_index) ws = some js ∧
      mapO (fun j => row[j]?) js = some vals ∧
      m = [vals] := by
  unfold submatrix at h
  cases h1 : mapO (lookupIdx e.words_to_index) [g] with
  | none => rw [h1] at h; exact absurd h (by simp)
  | some i1 =>
    cases h2 : mapO (lookupIdx e.words_to_index) ws with
    | none => rw [h1, h2] at h; exact absurd h (by simp)
    | some js =>
      rw [h1, h2] at h
      dsimp only at h
      rcases mapO_singleton_elim h1 with ⟨i, hi, rfl⟩
      cases h3 : e.grid[i]? with
      | none => rw [show mapO (fun i => e.grid[i]?) [i] = none by simp [mapO, h3]] at h
                exact absurd h (by simp)
      | some row =>
        rw [show mapO (fun i => e.grid[i]?) [i] = some [row] by simp [mapO, h3]] at h
        dsimp only at h
        cases h4 : mapO (fun j => row[j]?) js with
        | none =>
          rw [show mapO (fun r => mapO (fun j => r[j]?) js) [row] = none by
            simp [mapO, h4]] at h
          exact absurd h (by simp)
        | some vals =>
          rw [show mapO (fun r => mapO (fun j => r[j]?) js) [row] = some [vals] by
            simp [mapO, h4]] at h
          dsimp only at h
          cases h
          exact ⟨i, row, js, vals, hi, h3, rfl, h4, rfl⟩

theorem submatrix_single_intro {e : CacheEntry} {g : Word} {ws : List Word}
    {i : ℕ} {row : List ℕ} {js : List ℕ} {vals : List ℕ}
    (hi : lookupIdx e.words_to_index g = some i)
    (hrow : e.grid[i]? = some row)
    (hjs : mapO (lookupIdx e.words_to_index) ws = some js)
    (hvals : mapO (fun j => row[j]?) js = some vals) :
    submatrix e [g] ws = .ok [vals] := by
  unfold submatrix
  rw [show mapO (lookupIdx e.words_to_index) [g] = some [i] by simp [mapO, hi]]
  rw [hjs]
  dsimp only
  rw [show mapO (fun i => e.grid[i]?) [i] = some [row] by simp [mapO, hrow]]
  dsimp only
  rw [show mapO (fun r => mapO (fun j => r[j]?) js) [row] = some [vals] by
    simp [mapO, hvals]]

theorem mapO_row_vals {idx : List Word} {row : List ℕ} {F : Word → ℕ}
    (hallrow : ∀ w j, lookupIdx idx w = some j → row[j]? = some (F w)) :
    ∀ {ws : List Word} {js : List ℕ},
      List.Forall₂ (fun w j => lookupIdx idx w = some j) ws js →
      mapO (fun j => row[j]?) js = some (ws.map F) := by
  intro ws js h
  induction h with
  | nil => rfl
  | @cons w j tl jtl hwj htl ih =>
    exact mapO_cons_some (hallrow w j hwj) ih

theorem mapO_row_const {idx : List Word} {row : List ℕ} {patt : ℕ} :
    ∀ {l2 : List Word} {js2 : List ℕ},
      List.Forall₂ (fun w j => lookupIdx idx w = some j) l2 js2 →
      (∀ w ∈ l2, (lookupIdx idx w).bind (fun j => row[j]?) = some patt) →
      mapO (fun j => row[j]?) js2 = some (l2.map (fun _ => patt)) := by
  intro l2 js2 h
  induction h with
  | nil => intro _; rfl
  | @cons w j tl jtl hwj htl ih =>
    intro hall
    have hrj : row[j]? = some patt := by
      have := hall w (List.mem_cons_self _ _)
      rw [hwj] at this
      simpa using this
    exact mapO_cons_some hrj (ih (fun a ha => hall a (List.mem_cons_of_mem _ ha)))

theorem get_possible_words_intro (env : String → List Word) (e : CacheEntry)
    (guess : Word) (patt : ℕ) (ws : List Word) (game : String)
    {m : List (List ℕ)} (hs : submatrix e [guess] ws = .ok m) :
    get_possible_words env (some e) guess patt ws game =
      (.ok (((ws.zip m.flatten).filter (fun p => decide (p.2 = patt))).map (fun p => p.1)),
        some e) := by
  unfold get_possible_words get_pattern_matrix
  dsimp only
  rw [hs]

theorem get_possible_words_elim {env : String → List Word} {c : Cache}
    {guess : Word} {patt : ℕ} {ws : List Word} {game : String}
    {l2 : List Word} {c2 : Cache}
    (h : get_possible_words env c guess patt ws game = (.ok l2, c2)) :
    ∃ e m, c2 = some e ∧ submatrix e [guess] ws = .ok m ∧
      l2 = ((ws.zip m.flatten).filter (fun p => decide (p.2 = patt))).map (fun p => p.1) := by
  cases c with
  | none =>
    unfold get_possible_words get_pattern_matrix at h
    dsimp only at h
    cases hs : submatrix (mkEntry (env game)) [guess] ws with
    | error err => rw [hs] at h; exact absurd h (by simp)
    | ok m =>
      rw [hs] at h
      dsimp only at h
      rw [Prod.mk.injEq] at h
      exact ⟨mkEntry (env game), m, h.2.symm, hs, (Except.ok.injEq _ _ ▸ h.1).symm⟩
  | some e =>
    unfold get_possible_words get_pattern_matrix at h
    dsimp only at h
    cases hs : submatrix e [guess] ws with
    | error err => rw [hs] at h; exact absurd h (by simp)
    | ok m =>
      rw [hs] at h
      dsimp only at h
      rw [Prod.mk.injEq] at h
      exact ⟨e, m, h.2.symm, hs, (Except.ok.injEq _ _ ▸ h.1).symm⟩

/-- C7: filtering is idempotent — if `get_possible_words` succeeds once, then
applying it again with the same guess and pattern to its own result returns the
same list (and leaves the cache exactly as the first call left it). -/
theorem claim_C7_filter_idempotent (env : String → List Word) (c : Cache)
    (guess : Word) (patt : ℕ) (ws : List Word) (game : String)
    (l2 : List Word) (c2 : Cache)
    (h : get_possible_words env c guess patt ws game = (.ok l2, c2)) :
    get_possible_words env c2 guess patt l2 game = (.ok l2, c2) := by
  rcases get_possible_words_elim h with ⟨e, m, rfl, hs, hl2⟩
  rcases submatrix_single_elim hs with ⟨i, row, js, vals, hi, hrow, hjs, hvals, rfl⟩
  have hflat : (([vals] : List (List ℕ))).flatten = vals := by simp
  rw [hflat] at hl2
  have hF : List.Forall₂
      (fun w v => (lookupIdx e.words_to_index w).bind (fun j => row[j]?) = some v) ws vals :=
    forall₂_bind_comp (mapO_some_forall₂ hjs) (mapO_some_forall₂ hvals)
  have hl2' : l2 = ws.filter
      (fun w => decide ((lookupIdx e.words_to_index w).bind (fun j => row[j]?) = some patt)) := by
    rw [hl2, zip_filter_map_of_forall₂ hF]
  have hmem : ∀ w ∈ l2,
      (lookupIdx e.words_to_index w).bind (fun j => row[j]?) = some patt := by
    intro w hw
    rw [hl2'] at hw
    exact of_decide_eq_true (List.mem_filter.mp hw).2
  have hlook : ∀ w ∈ l2, ∃ j, lookupIdx e.words_to_index w = some j := by
    intro w hw
    rcases Option.bind_eq_some.mp (hmem w hw) with ⟨j, hj, _⟩
    exact ⟨j, hj⟩
  rcases mapO_isSome hlook with ⟨js2, hjs2⟩
  have hR1 : List.Forall₂ (fun w j => lookupIdx e.words_to_index w = some j) l2 js2 :=
    mapO_some_forall₂ hjs2
  have hvals2 : mapO (fun j => row[j]?) js2 = some (l2.map (fun _ => patt)) :=
    mapO_row_const hR1 hmem
  have hs2 : submatrix e [guess] l2 = .ok [l2.map (fun _ => patt)] :=
    submatrix_single_intro hi hrow hjs2 hvals2
  rw [get_possible_words_intro env e guess patt l2 game hs2]
  have hF2 : List.Forall₂
      (fun w v => (lookupIdx e.words_to_index w).bind (fun j => row[j]?) = some v)
      l2 (l2.map (fun _ => patt)) :=
    forall₂_map_of_forall hmem
  have : (((l2.zip ((([l2.map (fun _ => patt)] : List (List ℕ))).flatten)).filter
      (fun p => decide (p.2 = patt))).map (fun p => p.1)) = l2 := by
    rw [show (([l2.map (fun _ => patt)] : List (List ℕ))).flatten = l2.map (fun _ => patt) by simp]
    rw [zip_filter_map_of_forall₂ hF2]
    exact List.filter_eq_self.mpr (fun w hw => decide_eq_true (hmem w hw))
  rw [this]

/-- Witness for C7 at a concrete input: filtering `["aa","ab"]` by the pattern
of guess `"aa"` against answer `"ab"` (an empty cache gets populated), then
filtering the result again, returns the same singleton. -/
theorem claim_C7_filter_idempotent_witness :
    get_possible_words (fun _ => ["aa", "ab"]) (some (mkEntry ["aa", "ab"])) "aa" 2 ["ab"] "G" =
      (.ok ["ab"], some (mkEntry ["aa", "ab"])) :=
  claim_C7_filter_idempotent (fun _ => ["aa", "ab"]) none "aa" 2 ["aa", "ab"] "G"
    ["ab"] (some (mkEntry ["aa", "ab"])) rfl

/-- The cell the grid built for `words` stores for indexed words is the Pattern
Encoder's value. -/
theorem mkEntry_row (words : List Word) (guess : Word) {i : ℕ}
    (hi : lookupIdx words guess = some i) :
    (mkEntry words).grid[i]? = some (words.map (fun a => encodePattern guess a)) := by
  have hgi : words[i]? = some guess := lookupIdx_getElem? hi
  show (mkGrid words)[i]? = _
  unfold mkGrid
  rw [List.getElem?_map, hgi]
  rfl

/-- C10: for a cache populated for `words` (grid built by the Pattern Encoder),
a guess indexed in it, and a word list contained in it, `get_possible_words`
returns exactly the words of the list whose pattern against the guess equals
the given pattern — as the order-preserving filter of the input list (a sublist
containing a word iff it matches), with the cache untouched. -/
theorem claim_C10_exact_filter (env : String → List Word) (words ws : List Word)
    (guess : Word) (patt : ℕ) (game : String)
    (hg : guess ∈ words) (hws : ∀ w ∈ ws, w ∈ words) :
    get_possible_words env (some (mkEntry words)) guess patt ws game =
      (.ok (ws.filter (fun w => decide (encodePattern guess w = patt))), some (mkEntry words)) ∧
    (ws.filter (fun w => decide (encodePattern guess w = patt))).Sublist ws ∧
    (∀ w, w ∈ ws.filter (fun w => decide (encodePattern guess w = patt)) ↔
      w ∈ ws ∧ encodePattern guess w = patt) := by
  refine ⟨?_, List.filter_sublist ws, fun w => by
    rw [List.mem_filter]
    exact ⟨fun ⟨h1, h2⟩ => ⟨h1, of_decide_eq_true h2⟩,
      fun ⟨h1, h2⟩ => ⟨h1, decide_eq_true h2⟩⟩⟩
  rcases lookupIdx_isSome_of_mem hg with ⟨i, hi⟩
  have hrow := mkEntry_row words guess hi
  have hlk : ∀ w ∈ ws, ∃ j, lookupIdx (mkEntry words).words_to_index w = some j := by
    intro w hw
    exact lookupIdx_isSome_of_mem (hws w hw)
  rcases mapO_isSome hlk with ⟨js, hjs⟩
  have hR1 : List.Forall₂
      (fun w j => lookupIdx (mkEntry words).words_to_index w = some j) ws js :=
    mapO_some_forall₂ hjs
  have hvals2 : mapO (fun j => (words.map (fun a => encodePattern guess a))[j]?) js =
      some (ws.map (fun w => encodePattern guess w)) := by
    refine mapO_row_vals ?_ hR1
    intro w j hj
    have : words[j]? = some w := lookupIdx_getElem? hj
    simp [List.getElem?_map, this]
  have hs : submatrix (mkEntry words) [guess] ws =
      .ok [ws.map (fun w => encodePattern guess w)] :=
    submatrix_single_intro hi hrow hjs hvals2
  rw [get_possible_words_intro env (mkEntry words) guess patt ws game hs]
  have hF : List.Forall₂ (fun w v => some (encodePattern guess w) = some v) ws
      (ws.map (fun w => encodePattern guess w)) :=
    forall₂_map_of_forall (fun a _ => rfl)
  have hmain : (((ws.zip ((([ws.map (fun w => encodePattern guess w)] :
      List (List ℕ))).flatten)).filter (fun p => decide (p.2 = patt))).map (fun p => p.1)) =
      ws.filter (fun w => decide (encodePattern guess w = patt)) := by
    rw [show (([ws.map (fun w => encodePattern guess w)] : List (List ℕ))).flatten =
      ws.map (fun w => encodePattern guess w) by simp]
    rw [zip_filter_map_of_forall₂ hF]
    exact List.filter_congr (fun w _ => by simp)
  rw [hmain]

/-- Witness for C10 at a concrete input: word list `["aa","ab"]`, guess
`"aa"`, pattern 2 selects exactly `["ab"]`. -/
theorem claim_C10_exact_filter_witness :
    get_possible_words (fun _ => ["aa", "ab"]) (some (mkEntry ["aa", "ab"])) "aa" 2
        ["aa", "ab"] "G" =
      (.ok (["aa", "ab"].filter (fun w => decide (encodePattern "aa" w = 2))),
        some (mkEntry ["aa", "ab"])) :=
  (claim_C10_exact_filter (fun _ => ["aa", "ab"]) ["aa", "ab"] ["aa", "ab"] "aa" 2 "G"
    (by decide) (fun w hw => hw)).1

/- ------------------------------------------------------------------ -/
/- C4: the uniform "lower bound" versus simulated true average        -/
/- ------------------------------------------------------------------ -/

theorem sim_go_ge_score (eng : EntropyEngine) (pat : Word → Word → ℕ)
    (wordlist all_words : List Word) (priors : Word → ℚ) (answer : Word) :
    ∀ (fuel : ℕ) (guess : Word) (poss : List Word) (score s : ℕ),
      sim_go eng pat wordlist all_words priors answer fuel guess poss score = some s →
      score ≤ s := by
  intro fuel
  induction fuel with
  | zero =>
    intro guess poss score s h
    unfold sim_go at h
    by_cases hg : guess = answer
    · rw [if_pos hg] at h; cases h; exact le_refl _
    · rw [if_neg hg] at h; exact absurd h (by simp)
  | succ fuel ih =>
    intro guess poss score s h
    unfold sim_go at h
    by_cases hg : guess = answer
    · rw [if_pos hg] at h; cases h; exact le_refl _
    · rw [if_neg hg] at h
      dsimp only at h
      cases hog : optimal_guess eng pat wordlist all_words
          (poss.filter (fun w => decide (pat guess w = pat guess answer))) priors
          false true false 25 with
      | error e => rw [hog] at h; exact absurd h (by simp)
      | ok next =>
        rw [hog] at h
        exact le_trans (Nat.le_succ score) (ih next _ (score + 1) s h)

theorem sim_go_lb (eng : EntropyEngine) (pat : Word → Word → ℕ)
    (wordlist all_words : List Word) (priors : Word → ℚ) (answer candidate : Word)
    (possible0 : List Word) (fuel : ℕ) (s : ℕ)
    (h : sim_go eng pat wordlist all_words priors answer fuel candidate possible0 1 = some s) :
    (if candidate = answer then 1 else 2) ≤ s := by
  by_cases hg : candidate = answer
  · rw [if_pos hg]
    cases fuel with
    | zero => unfold sim_go at h; rw [if_pos hg] at h; cases h; exact le_refl _
    | succ fuel => unfold sim_go at h; rw [if_pos hg] at h; cases h; exact le_refl _
  · rw [if_neg hg]
    cases fuel with
    | zero =>
      unfold sim_go at h
      rw [if_neg hg] at h
      exact absurd h (by simp)
    | succ fuel =>
      unfold sim_go at h
      rw [if_neg hg] at h
      dsimp only at h
      cases hog : optimal_guess eng pat wordlist all_words
          (possible0.filter (fun w => decide (pat candidate w = pat candidate answer))) priors
          false true false 25 with
      | error e => rw [hog] at h; exact absurd h (by simp)
      | ok next =>
        rw [hog] at h
        exact sim_go_ge_score eng pat wordlist all_words priors answer fuel next _ 2 s h

theorem sum_sim_scores_ge (eng : EntropyEngine) (pat : Word → Word → ℕ)
    (wordlist all_words : List Word) (priors : Word → ℚ) (candidate : Word)
    (possible0 : List Word) (fuel : ℕ) :
    ∀ (l : List Word), l.Nodup → ∀ (scores : List ℕ),
      mapO (fun ans =>
        sim_go eng pat wordlist all_words priors ans fuel candidate possible0 1) l =
        some scores →
      2 * l.length ≤ scores.sum + (if candidate ∈ l then 1 else 0) := by
  intro l
  induction l with
  | nil =>
    intro _ scores h
    cases h
    simp
  | cons a tl ih =>
    intro hnd scores h
    rcases List.nodup_cons.mp hnd with ⟨hatl, htlnd⟩
    unfold mapO at h
    cases hfa : sim_go eng pat wordlist all_words priors a fuel candidate possible0 1 with
    | none => rw [hfa] at h; exact absurd h (by simp)
    | some s =>
      rw [hfa] at h
      cases htl : mapO (fun ans =>
          sim_go eng pat wordlist all_words priors ans fuel candidate possible0 1) tl with
      | none => rw [htl] at h; exact absurd h (by simp)
      | some stl =>
        rw [htl] at h
        cases h
        have hlb := sim_go_lb eng pat wordlist all_words priors a candidate possible0 fuel s hfa
        have ihh := ih htlnd stl htl
        simp only [List.sum_cons, List.length_cons]
        by_cases hca : candidate = a
        · subst hca
          rw [if_pos rfl] at hlb
          rw [if_pos (List.mem_cons_self _ _)]
          rw [if_neg hatl] at ihh
          omega
        · rw [if_neg hca] at hlb
          have hiff : (candidate ∈ a :: tl) ↔ (candidate ∈ tl) := by
            rw [List.mem_cons]
            exact ⟨fun hc => hc.resolve_left hca, Or.inr⟩
          by_cases hmem : candidate ∈ tl
          · rw [if_pos (hiff.mpr hmem)]
            rw [if_pos hmem] at ihh
            omega
          · rw [if_neg (fun hc => hmem (hiff.mp hc))]
            rw [if_neg hmem] at ihh
            omega

/-- C4 amended: what the Brute-Force Verifier's simulated average provably
dominates is `p1 + 2*p2 + 2*p3` (coefficient 2 on `p3`, not the source's 3):
every simulated game scores at least 1, and at least 2 when the candidate is
not the answer.  The `p1 + 2*p2 + 3*p3` value can exceed the simulated
average, as the counterexample shows. -/
theorem claim_C4_lower_bound (eng : EntropyEngine) (pat : Word → Word → ℕ)
    (wordlist all_words possible : List Word) (priors : Word → ℚ)
    (candidate : Word) (fuel : ℕ) (t : ℚ)
    (hnd : possible.Nodup) (hne : possible ≠ [])
    (ht : true_average_score eng pat wordlist all_words possible priors candidate fuel =
      some t) :
    (if candidate ∈ possible then (1 : ℚ) else 0) / possible.length
      + 2 * ((bucket_count pat candidate possible : ℚ) / possible.length
        - (if candidate ∈ possible then (1 : ℚ) else 0) / possible.length)
      + 2 * (1 - (bucket_count pat candidate possible : ℚ) / possible.length) ≤ t := by
  unfold true_average_score at ht
  cases hm : mapO (fun answer =>
      sim_go eng pat wordlist all_words priors answer fuel candidate possible 1) possible with
  | none => rw [hm] at ht; exact absurd ht (by simp)
  | some scores =>
    rw [hm] at ht
    have htv : t = (scores.map (fun s : ℕ => (s : ℚ))).sum / possible.length := by
      cases ht
      rfl
    have hsum := sum_sim_scores_ge eng pat wordlist all_words priors candidate possible
      fuel possible hnd scores hm
    have hnn : possible.length ≠ 0 := fun hc => hne (List.length_eq_zero.mp hc)
    have hn : (0 : ℚ) < possible.length := by positivity
    have hcast : (scores.map (fun s : ℕ => (s : ℚ))).sum = ((scores.sum : ℕ) : ℚ) := by
      induction scores with
      | nil => simp
      | cons x xs ih => simp [ih]
    have hsumQ : 2 * (possible.length : ℚ) - (if candidate ∈ possible then (1 : ℚ) else 0)
        ≤ (scores.map (fun s : ℕ => (s : ℚ))).sum := by
      rw [hcast]
      by_cases hmem : candidate ∈ possible
      · rw [if_pos hmem]
        rw [if_pos hmem] at hsum
        have : ((2 * possible.length : ℕ) : ℚ) ≤ ((scores.sum + 1 : ℕ) : ℚ) := by
          exact_mod_cast hsum
        push_cast at this
        linarith
      · rw [if_neg hmem]
        rw [if_neg hmem] at hsum
        have : ((2 * possible.length : ℕ) : ℚ) ≤ ((scores.sum : ℕ) : ℚ) := by
          exact_mod_cast (by omega : 2 * possible.length ≤ scores.sum)
        push_cast at this
        linarith
    have hgen : ∀ ind bc n : ℚ, n ≠ 0 →
        ind / n + 2 * (bc / n - ind / n) + 2 * (1 - bc / n) = (2 * n - ind) / n := by
      intro ind bc n hn0
      field_simp
      ring
    have hgoal_eq : (if candidate ∈ possible then (1 : ℚ) else 0) / (possible.length : ℚ)
        + 2 * ((bucket_count pat candidate possible : ℚ) / (possible.length : ℚ)
          - (if candidate ∈ possible then (1 : ℚ) else 0) / (possible.length : ℚ))
        + 2 * (1 - (bucket_count pat candidate possible : ℚ) / (possible.length : ℚ))
        = (2 * (possible.length : ℚ)
            - (if candidate ∈ possible then (1 : ℚ) else 0)) / (possible.length : ℚ) :=
      hgen _ _ _ hn.ne'
    rw [htv, hgoal_eq]
    exact div_le_div_of_nonneg_right hsumQ hn.le |>.trans_eq rfl

/-- The uniform lower bounds of policy 3 on the concrete word set used in the
counterexample: candidate "cc" leaves both possible words in one non-singleton
bucket, so its "lower bound" is 3. -/
theorem c4_lower_bounds_eval :
    get_score_lower_bounds encodePattern ["cc", "aa", "ab"] ["aa", "ab"] =
      .ok [3, 3/2, 3/2] := by
  unfold get_score_lower_bounds
  rw [if_neg (by decide)]
  norm_num [score_lower_bound,
    show bucket_count encodePattern "cc" ["aa", "ab"] = 0 from by decide,
    show bucket_count encodePattern "aa" ["aa", "ab"] = 2 from by decide,
    show bucket_count encodePattern "ab" ["aa", "ab"] = 2 from by decide,
    show ("cc" : Word) ∉ (["aa", "ab"] : List Word) from by decide,
    show ("aa" : Word) ∈ (["aa", "ab"] : List Word) from by decide,
    show ("ab" : Word) ∈ (["aa", "ab"] : List Word) from by decide]

theorem c4_og_pair :
    optimal_guess constEngine encodePattern ["cc", "aa", "ab"] ["cc", "aa", "ab"]
      ["aa", "ab"] onePrior false true false 25 = .ok "aa" := by
  unfold optimal_guess
  rw [if_neg (by decide)]
  rw [if_neg (by decide)]
  rw [if_pos rfl]
  rw [c4_lower_bounds_eval]
  dsimp only
  rw [if_neg (by decide)]
  rw [show argminIdx? [3, 3/2, 3/2] = some 1 from by norm_num [argminIdx?, argminAux]]
  rfl

theorem c4_lower_bounds_single :
    get_score_lower_bounds encodePattern ["cc", "aa", "ab"] ["ab"] = .ok [2, 2, 1] := by
  unfold get_score_lower_bounds
  rw [if_neg (by decide)]
  norm_num [score_lower_bound,
    show bucket_count encodePattern "cc" ["ab"] = 1 from by decide,
    show bucket_count encodePattern "aa" ["ab"] = 1 from by decide,
    show bucket_count encodePattern "ab" ["ab"] = 1 from by decide,
    show ("cc" : Word) ∉ (["ab"] : List Word) from by decide,
    show ("aa" : Word) ∉ (["ab"] : List Word) from by decide,
    show ("ab" : Word) ∈ (["ab"] : List Word) from by decide,
    show ("cc" : Word) ≠ "ab" from by decide,
    show ("aa" : Word) ≠ "ab" from by decide]

theorem c4_og_single :
    optimal_guess constEngine encodePattern ["cc", "aa", "ab"] ["cc", "aa", "ab"]
      ["ab"] onePrior false true false 25 = .ok "ab" := by
  unfold optimal_guess
  rw [if_neg (by decide)]
  rw [if_neg (by decide)]
  rw [if_pos rfl]
  rw [c4_lower_bounds_single]
  dsimp only
  rw [if_neg (by decide)]
  rw [show argminIdx? [2, 2, 1] = some 2 from by norm_num [argminIdx?, argminAux]]
  rfl

theorem c4_sim_aa :
    sim_go constEngine encodePattern ["cc", "aa", "ab"] ["cc", "aa", "ab"] onePrior
      "aa" 10 "cc" ["aa", "ab"] 1 = some 2 := by
  show sim_go _ _ _ _ _ _ (9 + 1) _ _ _ = _
  unfold sim_go
  rw [if_neg (by decide)]
  dsimp only
  rw [show (["aa", "ab"] : List Word).filter
      (fun w => decide (encodePattern "cc" w = encodePattern "cc" "aa")) = ["aa", "ab"]
    from by decide]
  rw [c4_og_pair]
  decide

theorem c4_sim_ab :
    sim_go constEngine encodePattern ["cc", "aa", "ab"] ["cc", "aa", "ab"] onePrior
      "ab" 10 "cc" ["aa", "ab"] 1 = some 3 := by
  show sim_go _ _ _ _ _ _ (9 + 1) _ _ _ = _
  unfold sim_go
  rw [if_neg (by decide)]
  dsimp only
  rw [show (["aa", "ab"] : List Word).filter
      (fun w => decide (encodePattern "cc" w = encodePattern "cc" "ab")) = ["aa", "ab"]
    from by decide]
  rw [c4_og_pair]
  dsimp only
  show sim_go _ _ _ _ _ _ (8 + 1) _ _ _ = _
  unfold sim_go
  rw [if_neg (by decide)]
  dsimp only
  rw [show (["aa", "ab"] : List Word).filter
      (fun w => decide (encodePattern "aa" w = encodePattern "aa" "ab")) = ["ab"]
    from by decide]
  rw [c4_og_single]
  decide

theorem c4_true_average :
    true_average_score constEngine encodePattern ["cc", "aa", "ab"] ["cc", "aa", "ab"]
      ["aa", "ab"] onePrior "cc" 10 = some (5/2) := by
  unfold true_average_score
  rw [show mapO (fun answer =>
      sim_go constEngine encodePattern ["cc", "aa", "ab"] ["cc", "aa", "ab"] onePrior
        answer 10 "cc" ["aa", "ab"] 1) ["aa", "ab"] = some [2, 3] from
    mapO_cons_some c4_sim_aa (mapO_cons_some c4_sim_ab rfl)]
  dsimp only
  norm_num

/-- C4 counterexample: over `possible = ["aa","ab"]` the candidate "cc" puts
both possible words in one bucket, so its policy-3 value is 3; yet the
Brute-Force Verifier's simulated games (answer "aa": cc, aa — 2 turns; answer
"ab": cc, aa, ab — 3 turns) average 5/2 < 3.  The "lower bound" overstates the
measured average. -/
theorem claim_C4_counterexample :
    get_score_lower_bounds encodePattern ["cc", "aa", "ab"] ["aa", "ab"] =
      .ok [3, 3/2, 3/2] ∧
    score_lower_bound encodePattern ["aa", "ab"] "cc" = 3 ∧
    true_average_score constEngine encodePattern ["cc", "aa", "ab"] ["cc", "aa", "ab"]
      ["aa", "ab"] onePrior "cc" 10 = some (5/2) ∧
    ¬(score_lower_bound encodePattern ["aa", "ab"] "cc" ≤ 5/2) := by
  have hsb : score_lower_bound encodePattern ["aa", "ab"] "cc" = 3 := by
    norm_num [score_lower_bound,
      show bucket_count encodePattern "cc" ["aa", "ab"] = 0 from by decide,
      show ("cc" : Word) ∉ (["aa", "ab"] : List Word) from by decide]
  refine ⟨c4_lower_bounds_eval, hsb, c4_true_average, ?_⟩
  rw [hsb]
  norm_num

/-- Witness for the amended C4 at the counterexample's concrete input:
`p1 + 2*p2 + 2*p3 = 2 ≤ 5/2`. -/
theorem claim_C4_lower_bound_witness :
    (if ("cc" : Word) ∈ (["aa", "ab"] : List Word) then (1 : ℚ) else 0) /
        (["aa", "ab"] : List Word).length
      + 2 * ((bucket_count encodePattern "cc" ["aa", "ab"] : ℚ) /
          (["aa", "ab"] : List Word).length
        - (if ("cc" : Word) ∈ (["aa", "ab"] : List Word) then (1 : ℚ) else 0) /
          (["aa", "ab"] : List Word).length)
      + 2 * (1 - (bucket_count encodePattern "cc" ["aa", "ab"] : ℚ) /
          (["aa", "ab"] : List Word).length) ≤ 5/2 :=
  claim_C4_lower_bound constEngine encodePattern ["cc", "aa", "ab"] ["cc", "aa", "ab"]
    ["aa", "ab"] onePrior "cc" 10 (5/2) (by decide) (by decide) c4_true_average

end WordleSolver
